import Mathlib

/-!
Verification development for the youtube-summarizer browser extension.

The source under scrutiny is `src/utils/api.js` (the OpenAI SSE streaming
decoder `callOpenAI`, the Gemini brace-scanning streaming decoder
`callGemini`, transcript truncation, and HTTP error mapping) and
`src/content/content.js` (`findPreferredTrack`, `parseTranscriptXml`).

JavaScript strings are modelled as `List Char`.  The JavaScript builtin
`JSON.parse` is modelled by an executable recursive-descent JSON parser
(`parseJson`), and `DOMParser` output is modelled as the list of text
contents of the selected elements.
-/

/-- Characters treated as whitespace here: space, tab, line feed and
    carriage return.  These are the whitespace characters that occur in the
    streams under study; JavaScript trim accepts a larger Unicode class. -/
def isWsChar (c : Char) : Bool := c = ' ' || c = '\t' || c = '\n' || c = '\r'

/-- Model of JavaScript trim on a list of characters: drop whitespace from
    both ends. -/
def jsTrim (l : List Char) : List Char :=
  ((l.dropWhile isWsChar).reverse.dropWhile isWsChar).reverse

/-- Split a character list at newline characters, returning the list of
    complete (newline-terminated) segments and the trailing segment after
    the last newline.  This models the source pattern
    `lines = buffer.split("\n"); buffer = lines.pop()` from callOpenAI:
    the first component is `lines` after the pop, the second is the new
    buffer. -/
def nlSplit : List Char → List (List Char) × List Char
  | [] => ([], [])
  | c :: cs =>
    if c = '\n' then
      let p := nlSplit cs
      ([] :: p.1, p.2)
    else
      let p := nlSplit cs
      match p.1 with
      | l :: ls => ((c :: l) :: ls, p.2)
      | [] => ([], c :: p.2)

/-- JSON values, the result type of the model of `JSON.parse`.  Numbers are
    kept exactly as a decimal mantissa and a power-of-ten exponent. -/
inductive Json where
  | null : Json
  | bool (b : Bool) : Json
  | num (mantissa : Int) (exp10 : Int) : Json
  | str (s : List Char) : Json
  | arr (elems : List Json) : Json
  | obj (fields : List (List Char × Json)) : Json

/-- Hexadecimal digit value, for JSON unicode escapes. -/
def hexVal (c : Char) : Option Nat :=
  if 48 ≤ c.toNat ∧ c.toNat ≤ 57 then some (c.toNat - 48)
  else if 97 ≤ c.toNat ∧ c.toNat ≤ 102 then some (c.toNat - 87)
  else if 65 ≤ c.toNat ∧ c.toNat ≤ 70 then some (c.toNat - 55)
  else none

/-- Single-character JSON string escapes. -/
def escChar (c : Char) : Option Char :=
  if c = '"' then some '"'
  else if c = '\\' then some '\\'
  else if c = '/' then some '/'
  else if c = 'n' then some '\n'
  else if c = 't' then some '\t'
  else if c = 'r' then some '\r'
  else if c = 'b' then some (Char.ofNat 8)
  else if c = 'f' then some (Char.ofNat 12)
  else none

/-- Parse the body of a JSON string literal (after the opening quote),
    returning the decoded characters and the rest of the input after the
    closing quote.  Unescaped control characters are rejected, as in
    JSON.parse. -/
def parseStrBody : List Char → Option (List Char × List Char)
  | [] => none
  | c :: cs =>
    if c = '"' then some ([], cs)
    else if c = '\\' then
      match cs with
      | [] => none
      | e :: cs2 =>
        if e = 'u' then
          match cs2 with
          | h1 :: h2 :: h3 :: h4 :: cs3 =>
            match hexVal h1, hexVal h2, hexVal h3, hexVal h4 with
            | some a, some b, some c2, some d2 =>
              (parseStrBody cs3).map
                (fun p => (Char.ofNat (4096 * a + 256 * b + 16 * c2 + d2) :: p.1, p.2))
            | _, _, _, _ => none
          | _ => none
        else
          match escChar e with
          | some ec => (parseStrBody cs2).map (fun p => (ec :: p.1, p.2))
          | none => none
    else if c.toNat < 32 then none
    else (parseStrBody cs).map (fun p => (c :: p.1, p.2))

/-- Drop leading JSON whitespace. -/
def skipWs : List Char → List Char
  | [] => []
  | c :: cs => if isWsChar c then skipWs cs else c :: cs

/-- Decimal value of a digit string. -/
def digitsToNat (l : List Char) : Nat :=
  l.foldl (fun a c => 10 * a + (c.toNat - 48)) 0

/-- Parse a JSON number (integer part, optional fraction, optional
    exponent).  The value is returned exactly as mantissa times a power of
    ten. -/
def parseNum (s : List Char) : Option (Json × List Char) :=
  let p1 : Bool × List Char :=
    match s with
    | '-' :: r => (true, r)
    | _ => (false, s)
  let ds := p1.2.takeWhile Char.isDigit
  let s2 := p1.2.dropWhile Char.isDigit
  if ds = [] then none
  else
    let intPart : Int := (digitsToNat ds : Int)
    let pFrac : Option (List Char) × List Char :=
      match s2 with
      | '.' :: r => (some (r.takeWhile Char.isDigit), r.dropWhile Char.isDigit)
      | _ => (none, s2)
    if pFrac.1 = some [] then none
    else
      let mant : Int :=
        match pFrac.1 with
        | some fs => intPart * (10 : Int) ^ fs.length + (digitsToNat fs : Int)
        | none => intPart
      let scale : Int :=
        match pFrac.1 with
        | some fs => -(fs.length : Int)
        | none => 0
      let s3 := pFrac.2
      let pExp : Option (Bool × List Char) × List Char :=
        match s3 with
        | c :: r =>
          if c = 'e' ∨ c = 'E' then
            match r with
            | '+' :: r2 => (some (false, r2.takeWhile Char.isDigit), r2.dropWhile Char.isDigit)
            | '-' :: r2 => (some (true, r2.takeWhile Char.isDigit), r2.dropWhile Char.isDigit)
            | _ => (some (false, r.takeWhile Char.isDigit), r.dropWhile Char.isDigit)
          else (none, s3)
        | [] => (none, s3)
      match pExp.1 with
      | some (_, []) => none
      | some (sgn, es) =>
        let e : Int := if sgn then -(digitsToNat es : Int) else (digitsToNat es : Int)
        some (Json.num (if p1.1 then -mant else mant) (scale + e), pExp.2)
      | none => some (Json.num (if p1.1 then -mant else mant) scale, pExp.2)

mutual

/-- Fuel-indexed recursive-descent JSON value parser; the model of
    `JSON.parse` used throughout.  Returns the value and the unconsumed
    rest of the input. -/
def parseValue : Nat → List Char → Option (Json × List Char)
  | 0, _ => none
  | fuel + 1, s =>
    match skipWs s with
    | 'n' :: 'u' :: 'l' :: 'l' :: r => some (Json.null, r)
    | 't' :: 'r' :: 'u' :: 'e' :: r => some (Json.bool true, r)
    | 'f' :: 'a' :: 'l' :: 's' :: 'e' :: r => some (Json.bool false, r)
    | '"' :: r => (parseStrBody r).map (fun p => (Json.str p.1, p.2))
    | '{' :: r =>
      match skipWs r with
      | '}' :: r2 => some (Json.obj [], r2)
      | r2 => parseMembers fuel r2
    | '[' :: r =>
      match skipWs r with
      | ']' :: r2 => some (Json.arr [], r2)
      | r2 => parseElems fuel r2
    | c :: r => if c = '-' ∨ c.isDigit then parseNum (c :: r) else none
    | [] => none

/-- Parse the members of a JSON object after the opening brace (the
    non-empty case), through the closing brace. -/
def parseMembers : Nat → List Char → Option (Json × List Char)
  | 0, _ => none
  | fuel + 1, s =>
    match skipWs s with
    | '"' :: r =>
      match parseStrBody r with
      | none => none
      | some (key, r2) =>
        match skipWs r2 with
        | ':' :: r3 =>
          match parseValue fuel r3 with
          | none => none
          | some (v, r4) =>
            match skipWs r4 with
            | ',' :: r5 =>
              match parseMembers fuel r5 with
              | some (Json.obj fs, r6) => some (Json.obj ((key, v) :: fs), r6)
              | _ => none
            | '}' :: r5 => some (Json.obj [(key, v)], r5)
            | _ => none
        | _ => none
    | _ => none

/-- Parse the elements of a JSON array after the opening bracket (the
    non-empty case), through the closing bracket. -/
def parseElems : Nat → List Char → Option (Json × List Char)
  | 0, _ => none
  | fuel + 1, s =>
    match parseValue fuel s with
    | none => none
    | some (v, r) =>
      match skipWs r with
      | ',' :: r2 =>
        match parseElems fuel r2 with
        | some (Json.arr vs, r3) => some (Json.arr (v :: vs), r3)
        | _ => none
      | ']' :: r2 => some (Json.arr [v], r2)
      | _ => none

end

/-- Model of `JSON.parse`: parse one JSON value and require that only
    whitespace follows it.  The fuel `s.length + 1` dominates the recursion
    depth, which consumes at least one character per fuel unit. -/
def parseJson (s : List Char) : Option Json :=
  match parseValue (s.length + 1) s with
  | some (v, r) => if skipWs r = [] then some v else none
  | none => none

/-- Last-wins field lookup on a parsed JSON object, matching the JavaScript
    semantics of property access on JSON.parse output with duplicate keys. -/
def jsonField (fs : List (List Char × Json)) (k : List Char) : Option Json :=
  fs.foldl (fun a p => if p.1 = k then some p.2 else a) none


/-! ## OpenAI streaming decoder (callOpenAI, src/utils/api.js lines 170-206) -/

/-- The SSE line marker `data: ` (six characters). -/
def dataMarker : List Char := "data: ".toList

/-- The terminal sentinel payload. -/
def doneMarker : List Char := "[DONE]".toList

/-- Extract `choices[0]?.delta?.content` from a parsed value when it is a
    string.  Any shape on which the JavaScript expression would evaluate to
    undefined, or would throw inside the surrounding try/catch, yields
    `none`; either way the source appends nothing and emits nothing. -/
def openAIDelta (j : Json) : Option (List Char) :=
  match j with
  | Json.obj fs =>
    match jsonField fs "choices".toList with
    | some (Json.arr (Json.obj cfs :: _)) =>
      match jsonField cfs "delta".toList with
      | some (Json.obj dfs) =>
        match jsonField dfs "content".toList with
        | some (Json.str s) => some s
        | _ => none
      | _ => none
    | _ => none
  | _ => none

/-- Handle the payload of one `data: ` line: parse it as JSON (parse errors
    are swallowed, lines 200-202), read the delta content with the
    falsy-empty default from the source, and when it is non-empty append it
    to the accumulator and emit it.  The state is the pair of the
    accumulated text `fullContent` and the ordered list of fragments passed
    to `onChunk` so far. -/
def handleDataLine (st : List Char × List (List Char)) (dataStr : List Char) :
    List Char × List (List Char) :=
  match parseJson dataStr with
  | none => st
  | some j =>
    let content := (openAIDelta j).getD []
    if content = [] then st else (st.1 ++ content, st.2 ++ [content])

/-- Process the complete lines produced from one network chunk, mirroring
    the for-loop of lines 186-204: blank lines are skipped, lines without
    the `data: ` marker are skipped, and the `[DONE]` sentinel stops the
    processing of the remaining lines of this chunk (the JavaScript `break`
    leaves only the inner for-loop). -/
def processLines (st : List Char × List (List Char)) :
    List (List Char) → List Char × List (List Char)
  | [] => st
  | line :: rest =>
    let t := jsTrim line
    if t = [] then processLines st rest
    else if dataMarker.isPrefixOf t then
      let dataStr := jsTrim (t.drop 6)
      if dataStr = doneMarker then st
      else processLines (handleDataLine st dataStr) rest
    else processLines st rest

/-- Decoder state across chunks: the pending-line buffer plus the
    accumulator state. -/
structure OState where
  buffer : List Char
  acc : List Char
  emitted : List (List Char)

/-- Process one incoming chunk: append it to the buffer, split on newlines,
    hold the last (possibly partial) segment back as the new buffer, and
    process the complete lines. -/
def oStep (st : OState) (chunk : List Char) : OState :=
  let p := nlSplit (st.buffer ++ chunk)
  let st2 := processLines (st.acc, st.emitted) p.1
  ⟨p.2, st2.1, st2.2⟩

/-- Run the OpenAI streaming decoder over a whole sequence of chunks. -/
def oDecode (chunks : List (List Char)) : OState :=
  chunks.foldl oStep ⟨[], [], []⟩

/-- The value `callOpenAI` returns in streaming mode after the transport
    reports completion: the accumulated `fullContent`. -/
def oDecodeResult (chunks : List (List Char)) : List Char :=
  (oDecode chunks).acc

/-! ## Gemini streaming decoder (callGemini, src/utils/api.js lines 272-343) -/

/-- Extract the Gemini content
    `candidates?.[0]?.content?.parts?.[0]?.text` from a parsed value when
    it is a string, as `none` otherwise (the optional chaining never
    throws). -/
def geminiCandText (j : Json) : Option (List Char) :=
  match j with
  | Json.obj fs =>
    match jsonField fs "candidates".toList with
    | some (Json.arr (Json.obj cfs :: _)) =>
      match jsonField cfs "content".toList with
      | some (Json.obj ofs) =>
        match jsonField ofs "parts".toList with
        | some (Json.arr (Json.obj pfs :: _)) =>
          match jsonField pfs "text".toList with
          | some (Json.str s) => some s
          | _ => none
        | _ => none
      | _ => none
    | _ => none
  | _ => none

/-- Extract the fallback content `content?.parts?.[0]?.text`. -/
def geminiDirectText (j : Json) : Option (List Char) :=
  match j with
  | Json.obj fs =>
    match jsonField fs "content".toList with
    | some (Json.obj ofs) =>
      match jsonField ofs "parts".toList with
      | some (Json.arr (Json.obj pfs :: _)) =>
        match jsonField pfs "text".toList with
        | some (Json.str s) => some s
        | _ => none
      | _ => none
    | _ => none
  | _ => none

/-- The content chosen on lines 314-317: the candidates path, or when that
    is absent or empty (falsy) the direct path, or the empty string. -/
def geminiContent (j : Json) : List Char :=
  let c1 := (geminiCandText j).getD []
  if c1 = [] then (geminiDirectText j).getD [] else c1

/-- Handle one brace-balanced span: parse it (a failure is logged and
    dropped, lines 323-324) and append/emit non-empty content. -/
def gHandle (st : List Char × List (List Char)) (jsonStr : List Char) :
    List Char × List (List Char) :=
  match parseJson jsonStr with
  | none => st
  | some j =>
    let content := geminiContent j
    if content = [] then st else (st.1 ++ content, st.2 ++ [content])

/-- Scan of the for-loop on lines 303-341: walk the buffer with a brace
    counter (which, as in the source, counts every brace character, also
    inside string literals, and may go negative), remembering where the
    count last rose from zero; return the start and end index of the first
    completed span.  `i` is the index of the head of `s` in the buffer,
    `depth` is `braceCount` and `start` is `startIndex` (`none` for -1). -/
def findObj : List Char → Nat → Int → Option Nat → Option (Nat × Nat)
  | [], _, _, _ => none
  | c :: cs, i, depth, start =>
    if c = '{' then
      findObj cs (i + 1) (depth + 1) (if depth == 0 then some i else start)
    else if c = '}' then
      let depth2 := depth - 1
      match start with
      | some s0 => if depth2 == 0 then some (s0, i) else findObj cs (i + 1) depth2 start
      | none => findObj cs (i + 1) depth2 none
    else findObj cs (i + 1) depth start

/-- The end index returned by the scan lies inside the scanned region. -/
theorem findObj_end_lt :
    ∀ (s : List Char) (i : Nat) (d : Int) (st : Option Nat) (a b : Nat),
      findObj s i d st = some (a, b) → b < i + s.length := by
  intro s
  induction s with
  | nil => intro i d st a b h; simp [findObj] at h
  | cons c cs ih =>
    intro i d st a b h
    rw [findObj] at h
    by_cases hc : c = '{'
    · simp only [hc, if_pos rfl] at h
      have := ih (i + 1) (d + 1) _ a b h
      simp only [List.length_cons]
      omega
    · simp only [if_neg hc] at h
      by_cases hc2 : c = '}'
      · simp only [hc2, if_pos rfl] at h
        cases st with
        | some s0 =>
          simp only at h
          by_cases hd : (d - 1) == 0
          · simp only [hd, if_pos rfl] at h
            cases h
            simp only [List.length_cons]
            omega
          · simp only [hd] at h
            simp at h
            have := ih (i + 1) (d - 1) _ a b h
            simp only [List.length_cons]
            omega
        | none =>
          simp only at h
          have := ih (i + 1) (d - 1) none a b h
          simp only [List.length_cons]
          omega
      · simp only [if_neg hc2] at h
        have := ih (i + 1) d st a b h
        simp only [List.length_cons]
        omega

/-- After a completed span is consumed, lines 328-334 strip one leading
    comma or closing bracket (checked on the trimmed remainder, removed by
    index of first occurrence, which under the check is the first
    non-whitespace character). -/
def stripSep (b : List Char) : List Char :=
  let r := jsTrim b
  if r.head? = some ',' then ((b.dropWhile (fun x => !(x == ','))).drop 1)
  else if r.head? = some ']' then ((b.dropWhile (fun x => !(x == ']'))).drop 1)
  else b

/-- Dropping a while-matching run never lengthens a list. -/
theorem dropWhile_len_le (p : Char → Bool) (l : List Char) :
    (l.dropWhile p).length ≤ l.length := by
  induction l with
  | nil => simp
  | cons c cs ih =>
    rw [List.dropWhile]
    split
    · simp only [List.length_cons]; omega
    · simp

/-- Stripping a separator never lengthens the buffer. -/
theorem stripSep_length_le (b : List Char) : (stripSep b).length ≤ b.length := by
  have hA := dropWhile_len_le (fun x => !(x == ',')) b
  have hB := dropWhile_len_le (fun x => !(x == ']')) b
  simp only [stripSep]
  split
  · simp only [List.length_drop]; omega
  · split
    · simp only [List.length_drop]; omega
    · exact Nat.le_refl _

/-- The scan-and-extract loop of lines 299-341: find the first completed
    brace span, cut it out of the buffer, handle it, strip a trailing
    separator, and restart the scan on the remaining buffer (the source
    resets the loop index to restart on the mutated buffer).  When no span
    completes the buffer is kept for the next chunk. -/
def gProcess (st : List Char × List (List Char)) (b : List Char) :
    (List Char × List (List Char)) × List Char :=
  match h : findObj b 0 0 none with
  | none => (st, b)
  | some (s0, e0) =>
    let jsonStr := (b.drop s0).take (e0 + 1 - s0)
    let st2 := gHandle st jsonStr
    gProcess st2 (stripSep (b.drop (e0 + 1)))
termination_by b.length
decreasing_by
  have hb := findObj_end_lt b 0 0 none s0 e0 h
  have hs := stripSep_length_le (b.drop (e0 + 1))
  simp only [List.length_drop] at hs ⊢
  omega

/-- The per-chunk sanitisation of lines 288-297: strip one leading `[`
    (checked on the trimmed buffer, removed at its first index) and then
    one leading comma. -/
def gSanitize (b : List Char) : List Char :=
  let b1 :=
    if (jsTrim b).head? = some '[' then ((b.dropWhile (fun x => !(x == '['))).drop 1)
    else b
  if (jsTrim b1).head? = some ',' then ((b1.dropWhile (fun x => !(x == ','))).drop 1)
  else b1

/-- Gemini decoder state across chunks. -/
structure GState where
  buffer : List Char
  acc : List Char
  emitted : List (List Char)

/-- Process one incoming Gemini chunk: append to the buffer, sanitise, and
    run the scan-and-extract loop. -/
def gStep (st : GState) (chunk : List Char) : GState :=
  let b := gSanitize (st.buffer ++ chunk)
  let r := gProcess (st.acc, st.emitted) b
  ⟨r.2, r.1.1, r.1.2⟩

/-- Run the Gemini streaming decoder over a whole sequence of chunks. -/
def gDecode (chunks : List (List Char)) : GState :=
  chunks.foldl gStep ⟨[], [], []⟩

/-- The value `callGemini` returns in streaming mode: the accumulated
    `fullContent`. -/
def gDecodeResult (chunks : List (List Char)) : List Char :=
  (gDecode chunks).acc

/-! ## HTTP error mapping and call entry (api.js lines 136-168, 237-270) -/

/-- The part of an HTTP response that the error path reads: the success
    flag, the status code and the raw body text. -/
structure HttpResp where
  ok : Bool
  status : Nat
  body : List Char

/-- Extract `errorData.error?.message` when it is a string. -/
def errMessage (j : Json) : Option (List Char) :=
  match j with
  | Json.obj fs =>
    match jsonField fs "error".toList with
    | some (Json.obj efs) =>
      match jsonField efs "message".toList with
      | some (Json.str s) => some s
      | _ => none
    | _ => none
  | _ => none

/-- The message of the Error thrown on a non-ok response (lines 163-168 and
    265-270): the provider message when the body parses as JSON and carries
    a truthy `error.message`, else the generic status message.  The
    `.catch(() => (\x7b\x7d))` turns an unparsable body into an empty
    object, whose missing `error.message` also falls back. -/
def apiErrorMsg (generic : List Char) (resp : HttpResp) : List Char :=
  let msg :=
    match parseJson resp.body with
    | some j => (errMessage j).getD []
    | none => []
  if msg = [] then generic ++ (toString resp.status).toList else msg

/-- Generic message parts for the two providers. -/
def openAIGeneric : List Char := "OpenAI API error: ".toList

def geminiGeneric : List Char := "Gemini API error: ".toList

/-- The observable outcome of a streaming `callOpenAI` once the response
    status is known: a rejection with the mapped error message (the decoder
    never runs, no fragment callback fires) or the decoder result together
    with the fragments emitted to the callback. -/
def callOpenAIOutcome (resp : HttpResp) (chunks : List (List Char)) :
    Except (List Char) (List Char) × List (List Char) :=
  if resp.ok then
    let st := oDecode chunks
    (Except.ok st.acc, st.emitted)
  else
    (Except.error (apiErrorMsg openAIGeneric resp), [])

/-- The observable outcome of a streaming `callGemini`. -/
def callGeminiOutcome (resp : HttpResp) (chunks : List (List Char)) :
    Except (List Char) (List Char) × List (List Char) :=
  if resp.ok then
    let st := gDecode chunks
    (Except.ok st.acc, st.emitted)
  else
    (Except.error (apiErrorMsg geminiGeneric resp), [])

/-! ## Transcript truncation (api.js lines 136-141 and 237-241) -/

/-- The truncation marker appended to an over-long transcript. -/
def truncMarker : List Char := "...[truncated]".toList

/-- OpenAI-path transcript truncation: over 15000 characters, keep the
    first 15000 and append the marker. -/
def openAITruncate (transcript : List Char) : List Char :=
  if 15000 < transcript.length then transcript.take 15000 ++ truncMarker
  else transcript

/-- Gemini-path transcript truncation with the 30000-character threshold. -/
def geminiTruncate (transcript : List Char) : List Char :=
  if 30000 < transcript.length then transcript.take 30000 ++ truncMarker
  else transcript

/-! ## Caption track selection (content.js lines 179-195) -/

/-- A caption track as read from the player metadata.  A `kind` of `none`
    models an absent (or empty, equally falsy in the source test
    `!track.kind`) kind field; auto-generated tracks carry `some "asr"`. -/
structure CaptionTrack where
  languageCode : String
  kind : Option String

/-- The six ordered priority predicates of lines 180-187. -/
def trackPriorities : List (CaptionTrack → Bool) :=
  [ fun t => t.languageCode == "en" && t.kind.isNone,
    fun t => t.languageCode == "vi" && t.kind.isNone,
    fun t => t.languageCode == "en" && t.kind == some "asr",
    fun t => t.languageCode == "vi" && t.kind == some "asr",
    fun t => t.kind.isNone,
    fun t => t.kind == some "asr" ]

/-- First-match-wins search over a priority list, with fallback to the
    first track (`tracks[0] || null` is `none` on an empty list). -/
def searchPriorities (ps : List (CaptionTrack → Bool)) (tracks : List CaptionTrack) :
    Option CaptionTrack :=
  match ps with
  | [] => tracks.head?
  | p :: rest =>
    match tracks.find? p with
    | some t => some t
    | none => searchPriorities rest tracks

/-- Model of `findPreferredTrack`. -/
def findPreferredTrack (tracks : List CaptionTrack) : Option CaptionTrack :=
  searchPriorities trackPriorities tracks

/-! ## Transcript XML flattening (content.js lines 247-273) -/

/-- Replace every occurrence of a non-empty pattern in a character list,
    scanning left to right, as the JavaScript global-regex
    `String.replace(/pat/g, rep)` does for a literal pattern. -/
def replaceAll (pat rep : List Char) (s : List Char) : List Char :=
  match s with
  | [] => []
  | c :: cs =>
    if pat.isPrefixOf (c :: cs) ∧ pat ≠ [] then
      rep ++ replaceAll pat rep ((c :: cs).drop pat.length)
    else
      c :: replaceAll pat rep cs
termination_by s.length
decreasing_by
  · rename_i h
    simp only [List.length_drop]
    have : pat.length ≠ 0 := by
      intro h0
      exact h.2 (List.eq_nil_of_length_eq_zero h0)
    simp only [List.length_cons]
    omega
  · simp

/-- The per-element normalisation of lines 258-266: HTML-unescape the five
    entities, turn newlines into spaces and trim. -/
def normalizeText (t : List Char) : List Char :=
  jsTrim (replaceAll ['\n'] [' ']
    (replaceAll "&#39;".toList [Char.ofNat 39]
      (replaceAll "&quot;".toList ['"']
        (replaceAll "&gt;".toList ['>']
          (replaceAll "&lt;".toList ['<']
            (replaceAll "&amp;".toList ['&'] t))))))

/-- The text contents, in document order, of the elements the source
    selects: every `text` element, or every `p` element when there is no
    `text` element.  This models the DOMParser document by those two
    element lists. -/
structure TimedTextDoc where
  textEls : List (List Char)
  pEls : List (List Char)

/-- Join fragments with single spaces, the model of `join(" ")`. -/
def joinSpace : List (List Char) → List Char
  | [] => []
  | [x] => x
  | x :: xs => x ++ ' ' :: joinSpace xs

/-- Model of `parseTranscriptXml` after DOM parsing: normalise each
    selected element, keep the non-empty results in order (the source
    pushes them onto `texts`), join them with single spaces. -/
def parseTranscriptXml (doc : TimedTextDoc) : List Char :=
  let els := if doc.textEls.length = 0 then doc.pEls else doc.textEls
  let texts := els.foldl
    (fun acc el =>
      let t := normalizeText el
      if t ≠ [] then acc ++ [t] else acc) []
  joinSpace texts

/-! ## Well-formed stream renderers (the shapes named by the spec) -/

/-- Skeleton of one OpenAI streaming payload before the content string. -/
def payloadPre : List Char :=
  ['{', '"'] ++ "choices".toList ++ ['"', ':', '[', '{', '"'] ++ "delta".toList ++
    ['"', ':', '{', '"'] ++ "content".toList ++ ['"', ':', '"']

/-- Skeleton of one OpenAI streaming payload after the content string. -/
def payloadSuf : List Char := ['"', '}', '}', ']', '}']

/-- The JSON text of one OpenAI stream event carrying content `d`. -/
def payloadChars (d : List Char) : List Char := payloadPre ++ d ++ payloadSuf

/-- The parsed form of `payloadChars d`. -/
def chunkJson (d : List Char) : Json :=
  Json.obj [("choices".toList,
    Json.arr [Json.obj [("delta".toList,
      Json.obj [("content".toList, Json.str d)])]])]

/-- One complete SSE data line. -/
def dataLineChars (d : List Char) : List Char := dataMarker ++ payloadChars d

/-- The terminal SSE line. -/
def doneLineChars : List Char := dataMarker ++ doneMarker

/-- A well-formed OpenAI SSE stream for a list of delta contents: one data
    line per delta, each line terminated by a blank line, closed by the
    `[DONE]` line. -/
def renderSSE (deltas : List (List Char)) : List Char :=
  (deltas.map (fun d => dataLineChars d ++ ['\n', '\n'])).flatten ++
    doneLineChars ++ ['\n', '\n']

/-- Content strings that need no JSON escaping and survive line handling
    untouched: no quote, no backslash, no control characters (in
    particular no newline). -/
def StreamSafe (d : List Char) : Prop :=
  ∀ c ∈ d, c ≠ '"' ∧ c ≠ '\\' ∧ 32 ≤ c.toNat

instance (d : List Char) : Decidable (StreamSafe d) := by
  unfold StreamSafe; infer_instance

/-- Skeleton of one Gemini streaming array element before the text. -/
def gObjPre : List Char :=
  ['{', '"'] ++ "candidates".toList ++ ['"', ':', '[', '{', '"'] ++ "content".toList ++
    ['"', ':', '{', '"'] ++ "parts".toList ++ ['"', ':', '[', '{', '"'] ++ "text".toList ++
    ['"', ':', '"']

/-- Skeleton of one Gemini streaming array element after the text. -/
def gObjSuf : List Char := ['"', '}', ']', '}', '}', ']', '}']

/-- The JSON text of one Gemini stream element carrying text `t`. -/
def gObjChars (t : List Char) : List Char := gObjPre ++ t ++ gObjSuf

/-- The parsed form of `gObjChars t`. -/
def gCandJson (t : List Char) : Json :=
  Json.obj [("candidates".toList,
    Json.arr [Json.obj [("content".toList,
      Json.obj [("parts".toList,
        Json.arr [Json.obj [("text".toList, Json.str t)]])])]])]

/-- A well-formed Gemini streaming JSON array for a list of texts. -/
def renderGemini (ts : List (List Char)) : List Char :=
  '[' :: (List.intercalate [','] (ts.map gObjChars)) ++ [']']



/-! ## Predicates and shape definitions used by the lemmas -/

/-- Character-list shape of a JSON string literal. -/
def strCh (d : List Char) : List Char := '"' :: d ++ ['"']

/-- Character-list shape of a one-field JSON object. -/
def obj1Ch (key vch : List Char) : List Char :=
  '{' :: '"' :: key ++ '"' :: ':' :: vch ++ ['}']

/-- Character-list shape of a one-element JSON array. -/
def arr1Ch (vch : List Char) : List Char := '[' :: vch ++ [']']

/-- Lines on which processing halts for the rest of the chunk. -/
def IsDoneLine (l : List Char) : Prop :=
  dataMarker.isPrefixOf (jsTrim l) = true ∧ jsTrim ((jsTrim l).drop 6) = doneMarker

/-- Ordering condition for chunk splitting: once a done line has occurred,
    every later line is blank. -/
def DoneBlank (l1 l2 : List Char) : Prop := IsDoneLine l1 → jsTrim l2 = []

instance (l : List Char) : Decidable (IsDoneLine l) := by
  unfold IsDoneLine; infer_instance

/-- The complete lines of a rendered SSE stream. -/
def sseLines (deltas : List (List Char)) : List (List Char) :=
  (deltas.flatMap (fun d => [dataLineChars d, []])) ++ [doneLineChars, []]

/-- State invariant: accumulator is the concatenation of what was emitted,
    and every emitted fragment is non-empty. -/
def AccInv (a : List Char) (e : List (List Char)) : Prop :=
  a = e.flatten ∧ ∀ f ∈ e, f ≠ []

/-- Rolling brace balance check: scanning from depth `d` at least 1, the
    depth stays positive and returns to zero exactly at the last
    character. -/
def properTailB (d : Int) : List Char → Bool
  | [] => false
  | c :: cs =>
    if c = '{' then properTailB (d + 1) cs
    else if c = '}' then (if d = 1 then cs.isEmpty else properTailB (d - 1) cs)
    else properTailB d cs

/-- A span the brace scanner consumes in one piece: an opening brace
    followed by a properly nested remainder (no brace characters hidden in
    string literals). -/
def ProperSpan (p : List Char) : Prop :=
  p.head? = some '{' ∧ properTailB 1 p.tail = true

instance (p : List Char) : Decidable (ProperSpan p) := by
  unfold ProperSpan; infer_instance

/-- Texts free of brace characters; the brace scanner requires this. -/
def BraceFree (t : List Char) : Prop := ∀ c ∈ t, c ≠ '{' ∧ c ≠ '}'

instance (t : List Char) : Decidable (BraceFree t) := by
  unfold BraceFree; infer_instance

/-- Track selection written as the claim states it: six ordered
    predicates, first match wins, fallback to the first track. -/
def claimTrackChoice (tracks : List CaptionTrack) : Option CaptionTrack :=
  match tracks.find? (fun t => t.languageCode == "en" && t.kind.isNone) with
  | some t => some t
  | none =>
    match tracks.find? (fun t => t.languageCode == "vi" && t.kind.isNone) with
    | some t => some t
    | none =>
      match tracks.find? (fun t => t.languageCode == "en" && t.kind == some "asr") with
      | some t => some t
      | none =>
        match tracks.find? (fun t => t.languageCode == "vi" && t.kind == some "asr") with
        | some t => some t
        | none =>
          match tracks.find? (fun t => t.kind.isNone) with
          | some t => some t
          | none =>
            match tracks.find? (fun t => t.kind == some "asr") with
            | some t => some t
            | none => tracks.head?

/-! ## Parser lemmas on the rendered shapes -/

theorem psb_close (r : List Char) : parseStrBody ('"' :: r) = some ([], r) := by
  rw [parseStrBody.eq_def]; simp

theorem psb_safe (c : Char) (cs : List Char) (h1 : c ≠ '"') (h2 : c ≠ '\\')
    (h3 : 32 ≤ c.toNat) :
    parseStrBody (c :: cs) = (parseStrBody cs).map (fun p => (c :: p.1, p.2)) := by
  have h4 : ¬(c.toNat < 32) := by omega
  rw [parseStrBody.eq_def]
  simp only [if_neg h1, if_neg h2, if_neg h4]

theorem parseStrBody_ok (d : List Char) (hd : StreamSafe d) (r : List Char) :
    parseStrBody (d ++ '"' :: r) = some (d, r) := by
  induction d with
  | nil => simpa using psb_close r
  | cons c cs ih =>
    obtain ⟨h1, h2, h3⟩ := hd c (by simp)
    have hcs : StreamSafe cs := fun x hx => hd x (by simp [hx])
    rw [List.cons_append, psb_safe c _ h1 h2 h3, ih hcs]
    rfl

theorem skipWs_cons (c : Char) (cs : List Char) (h : isWsChar c = false) :
    skipWs (c :: cs) = c :: cs := by
  simp [skipWs, h]

theorem pv_strCh (n : Nat) (d : List Char) (hd : StreamSafe d) :
    ∀ r, parseValue (n + 1) (strCh d ++ r) = some (Json.str d, r) := by
  intro r
  have h := parseStrBody_ok d hd r
  have hs : strCh d ++ r = '"' :: (d ++ '"' :: r) := by simp [strCh]
  rw [hs, parseValue, skipWs_cons '"' _ (by decide)]
  simp [h]

theorem pv_obj1Ch (n : Nat) (key : List Char) (hk : StreamSafe key)
    (vch : List Char) (vj : Json)
    (hv : ∀ r, parseValue n (vch ++ r) = some (vj, r)) :
    ∀ r, parseValue (n + 2) (obj1Ch key vch ++ r) = some (Json.obj [(key, vj)], r) := by
  intro rest
  have hkey := parseStrBody_ok key hk (':' :: (vch ++ '}' :: rest))
  have hval := hv ('}' :: rest)
  have hs : obj1Ch key vch ++ rest = '{' :: '"' :: (key ++ '"' :: (':' :: (vch ++ '}' :: rest))) := by
    simp [obj1Ch]
  rw [hs]
  simp [parseValue, parseMembers, skipWs_cons, isWsChar, hkey, hval]

theorem pv_arr1Ch (n : Nat) (vtail : List Char) (vj : Json)
    (hv : ∀ r, parseValue n ('{' :: (vtail ++ r)) = some (vj, r)) :
    ∀ r, parseValue (n + 2) (arr1Ch ('{' :: vtail) ++ r) = some (Json.arr [vj], r) := by
  intro rest
  have hval := hv (']' :: rest)
  have hs : arr1Ch ('{' :: vtail) ++ rest = '[' :: '{' :: (vtail ++ ']' :: rest) := by
    simp [arr1Ch]
  rw [hs]
  simp [parseValue, parseElems, skipWs_cons, isWsChar, hval]

theorem payloadChars_shape (d : List Char) :
    payloadChars d = obj1Ch "choices".toList (arr1Ch (obj1Ch "delta".toList
      (obj1Ch "content".toList (strCh d)))) := by
  simp [payloadChars, payloadPre, payloadSuf, strCh, obj1Ch, arr1Ch]

theorem parseValue_payload (n : Nat) (d : List Char) (hd : StreamSafe d) :
    ∀ r, parseValue (n + 9) (payloadChars d ++ r) = some (chunkJson d, r) := by
  have h1 := pv_strCh n d hd
  have h2 := pv_obj1Ch (n + 1) "content".toList (by decide) _ _ h1
  have h3 := pv_obj1Ch (n + 3) "delta".toList (by decide) _ _ h2
  have h4 := pv_arr1Ch (n + 5) _ _ (fun r => h3 r)
  have h5 := pv_obj1Ch (n + 7) "choices".toList (by decide) _ _ h4
  intro r
  rw [payloadChars_shape]
  have h6 := h5 r
  simpa [chunkJson, strCh, obj1Ch, arr1Ch] using h6

theorem parseJson_payload (d : List Char) (hd : StreamSafe d) :
    parseJson (payloadChars d) = some (chunkJson d) := by
  have hl : (payloadChars d).length + 1 = (d.length + 30) + 9 := by
    simp [payloadChars, payloadPre, payloadSuf]
  have hp := parseValue_payload (d.length + 30) d hd []
  rw [List.append_nil] at hp
  rw [parseJson, hl, hp]
  rfl

theorem gObjChars_shape (t : List Char) :
    gObjChars t = obj1Ch "candidates".toList (arr1Ch (obj1Ch "content".toList
      (obj1Ch "parts".toList (arr1Ch (obj1Ch "text".toList (strCh t)))))) := by
  simp [gObjChars, gObjPre, gObjSuf, strCh, obj1Ch, arr1Ch]

theorem parseValue_gObj (n : Nat) (t : List Char) (ht : StreamSafe t) :
    ∀ r, parseValue (n + 13) (gObjChars t ++ r) = some (gCandJson t, r) := by
  have h1 := pv_strCh n t ht
  have h2 := pv_obj1Ch (n + 1) "text".toList (by decide) _ _ h1
  have h3 := pv_arr1Ch (n + 3) _ _ (fun r => h2 r)
  have h4 := pv_obj1Ch (n + 5) "parts".toList (by decide) _ _ h3
  have h5 := pv_obj1Ch (n + 7) "content".toList (by decide) _ _ h4
  have h6 := pv_arr1Ch (n + 9) _ _ (fun r => h5 r)
  have h7 := pv_obj1Ch (n + 11) "candidates".toList (by decide) _ _ h6
  intro r
  rw [gObjChars_shape]
  have h8 := h7 r
  simpa [gCandJson, strCh, obj1Ch, arr1Ch] using h8

theorem parseJson_gObj (t : List Char) (ht : StreamSafe t) :
    parseJson (gObjChars t) = some (gCandJson t) := by
  have hl : (gObjChars t).length + 1 = (t.length + 40) + 13 := by
    simp [gObjChars, gObjPre, gObjSuf]
  have hp := parseValue_gObj (t.length + 40) t ht []
  rw [List.append_nil] at hp
  rw [parseJson, hl, hp]
  rfl

theorem openAIDelta_chunkJson (d : List Char) : openAIDelta (chunkJson d) = some d := rfl

theorem geminiContent_gCandJson (t : List Char) : geminiContent (gCandJson t) = t := by
  simp [geminiContent, geminiCandText, gCandJson, jsonField]
  intro h
  simp [geminiDirectText, gCandJson, jsonField, h]

/-! ## OpenAI line-processing lemmas -/

theorem isPrefixOf_append_self (p x : List Char) : p.isPrefixOf (p ++ x) = true := by
  induction p with
  | nil => simp [List.isPrefixOf]
  | cons c cs ih => simp [List.isPrefixOf, ih]

theorem pl_nil (st : List Char × List (List Char)) : processLines st [] = st := by
  rw [processLines]

theorem pl_skip (st : List Char × List (List Char)) (l : List Char) (ls : List (List Char))
    (h : dataMarker.isPrefixOf (jsTrim l) = false) :
    processLines st (l :: ls) = processLines st ls := by
  rw [processLines]
  by_cases ht : jsTrim l = []
  · simp [ht]
  · simp [ht, h]

theorem pl_done (st : List Char × List (List Char)) (l : List Char) (ls : List (List Char))
    (h : IsDoneLine l) :
    processLines st (l :: ls) = st := by
  obtain ⟨h1, h2⟩ := h
  have ht : jsTrim l ≠ [] := by
    intro he
    rw [he] at h1
    simp [dataMarker, List.isPrefixOf] at h1
  rw [processLines]
  simp [ht, h1, h2]

theorem pl_data (st : List Char × List (List Char)) (l : List Char) (ls : List (List Char))
    (h1 : dataMarker.isPrefixOf (jsTrim l) = true)
    (h2 : jsTrim ((jsTrim l).drop 6) ≠ doneMarker) :
    processLines st (l :: ls) =
      processLines (handleDataLine st (jsTrim ((jsTrim l).drop 6))) ls := by
  have ht : jsTrim l ≠ [] := by
    intro he
    rw [he] at h1
    simp [dataMarker, List.isPrefixOf] at h1
  rw [processLines]
  simp [ht, h1, h2]

theorem blanks_noop (st : List Char × List (List Char)) (ls : List (List Char))
    (h : ∀ l ∈ ls, jsTrim l = []) : processLines st ls = st := by
  induction ls with
  | nil => exact pl_nil st
  | cons l ls ih =>
    have hb := h l (by simp)
    rw [pl_skip st l ls (by rw [hb]; rfl)]
    exact ih (fun x hx => h x (by simp [hx]))

theorem processLines_append (st : List Char × List (List Char)) (ls1 ls2 : List (List Char))
    (h : ∀ l1 ∈ ls1, IsDoneLine l1 → ∀ l2 ∈ ls2, jsTrim l2 = []) :
    processLines st (ls1 ++ ls2) = processLines (processLines st ls1) ls2 := by
  induction ls1 generalizing st with
  | nil => rw [pl_nil]; rfl
  | cons l ls ih =>
    by_cases hdone : IsDoneLine l
    · rw [List.cons_append, pl_done st l _ hdone, pl_done st l _ hdone]
      exact (blanks_noop _ ls2 (h l (by simp) hdone)).symm
    · have hnext : ∀ l1 ∈ ls, IsDoneLine l1 → ∀ l2 ∈ ls2, jsTrim l2 = [] :=
        fun l1 hl1 => h l1 (by simp [hl1])
      cases hp : dataMarker.isPrefixOf (jsTrim l) with
      | true =>
        by_cases hd : jsTrim ((jsTrim l).drop 6) = doneMarker
        · exact absurd ⟨hp, hd⟩ hdone
        · rw [List.cons_append, pl_data _ l _ hp hd, pl_data _ l _ hp hd]
          exact ih _ hnext
      | false =>
        rw [List.cons_append, pl_skip _ l _ hp, pl_skip _ l _ hp]
        exact ih _ hnext

theorem nlSplit_nil : nlSplit [] = ([], []) := by rw [nlSplit]

theorem nlSplit_cons_nl (cs : List Char) :
    nlSplit ('\n' :: cs) = ([] :: (nlSplit cs).1, (nlSplit cs).2) := by
  rw [nlSplit]
  simp

theorem nlSplit_cons_other (c : Char) (cs : List Char) (hc : c ≠ '\n') :
    nlSplit (c :: cs) =
      (match (nlSplit cs).1 with
       | l :: ls => ((c :: l) :: ls, (nlSplit cs).2)
       | [] => ([], c :: (nlSplit cs).2)) := by
  rw [nlSplit]
  simp only [if_neg hc]
  try rfl

theorem nlSplit_append (x y : List Char) :
    nlSplit (x ++ y) =
      ((nlSplit x).1 ++ (nlSplit ((nlSplit x).2 ++ y)).1,
        (nlSplit ((nlSplit x).2 ++ y)).2) := by
  induction x with
  | nil => simp [nlSplit_nil]
  | cons c cs ih =>
    by_cases hc : c = '\n'
    · subst hc
      rw [List.cons_append, nlSplit_cons_nl, nlSplit_cons_nl]
      simp [ih]
    · rw [List.cons_append, nlSplit_cons_other c _ hc, nlSplit_cons_other c _ hc]
      rcases h1 : (nlSplit cs).1 with _ | ⟨l, ls⟩
      · simp only [ih, h1, List.nil_append, List.cons_append]
        rw [nlSplit_cons_other c _ hc]
      · simp only [ih, h1, List.cons_append]


theorem nlSplit_noNl (x : List Char) (h : '\n' ∉ x) : nlSplit x = ([], x) := by
  induction x with
  | nil => exact nlSplit_nil
  | cons c cs ih =>
    have hc : c ≠ '\n' := fun he => h (by simp [he])
    rw [nlSplit_cons_other c _ hc, ih (fun hm => h (by simp [hm]))]

theorem nlSplit_tail_noNl (x : List Char) : '\n' ∉ (nlSplit x).2 := by
  induction x with
  | nil => simp [nlSplit_nil]
  | cons c cs ih =>
    by_cases hc : c = '\n'
    · subst hc
      rw [nlSplit_cons_nl]
      exact ih
    · rw [nlSplit_cons_other c _ hc]
      rcases h1 : (nlSplit cs).1 with _ | ⟨l, ls⟩
      · simp only
        intro hm
        rcases List.mem_cons.mp hm with h | h
        · exact hc h.symm
        · exact ih h
      · simpa using ih

theorem nlSplit_line (x y : List Char) (h : '\n' ∉ x) :
    nlSplit (x ++ '\n' :: y) = (x :: (nlSplit y).1, (nlSplit y).2) := by
  induction x with
  | nil => simp [nlSplit_cons_nl]
  | cons c cs ih =>
    have hc : c ≠ '\n' := fun he => h (by simp [he])
    rw [List.cons_append, nlSplit_cons_other c _ hc,
      ih (fun hm => h (by simp [hm]))]

/-- Chunk-by-chunk decoding is line processing of the concatenation, as
    long as lines after a done line are all blank: the buffer always holds
    the trailing segment after the last newline, and the processed lines
    are the complete lines in order. -/
theorem oFold (cs : List (List Char)) :
    ∀ (b a : List Char) (e : List (List Char)),
      '\n' ∉ b →
      List.Pairwise DoneBlank (nlSplit (b ++ cs.flatten)).1 →
      List.foldl oStep ⟨b, a, e⟩ cs =
        ⟨(nlSplit (b ++ cs.flatten)).2,
          (processLines (a, e) (nlSplit (b ++ cs.flatten)).1).1,
          (processLines (a, e) (nlSplit (b ++ cs.flatten)).1).2⟩ := by
  induction cs with
  | nil =>
    intro b a e hb _
    rw [List.flatten_nil, List.append_nil, nlSplit_noNl b hb]
    simp [pl_nil]
  | cons c cs ih =>
    intro b a e hb hpw
    have hsplit : nlSplit (b ++ (c :: cs).flatten) =
        ((nlSplit (b ++ c)).1 ++ (nlSplit ((nlSplit (b ++ c)).2 ++ cs.flatten)).1,
          (nlSplit ((nlSplit (b ++ c)).2 ++ cs.flatten)).2) := by
      rw [List.flatten_cons, ← List.append_assoc]
      exact nlSplit_append (b ++ c) cs.flatten
    rw [hsplit] at hpw
    simp only at hpw
    have hpw2 := (List.pairwise_append.mp hpw).2.1
    have hcross := (List.pairwise_append.mp hpw).2.2
    rw [List.foldl_cons]
    have hstep : oStep ⟨b, a, e⟩ c =
        ⟨(nlSplit (b ++ c)).2,
          (processLines (a, e) (nlSplit (b ++ c)).1).1,
          (processLines (a, e) (nlSplit (b ++ c)).1).2⟩ := rfl
    rw [hstep]
    rw [ih _ _ _ (nlSplit_tail_noNl (b ++ c)) hpw2]
    rw [hsplit]
    have hpl : processLines (a, e)
          ((nlSplit (b ++ c)).1 ++ (nlSplit ((nlSplit (b ++ c)).2 ++ cs.flatten)).1) =
        processLines (processLines (a, e) (nlSplit (b ++ c)).1)
          (nlSplit ((nlSplit (b ++ c)).2 ++ cs.flatten)).1 := by
      apply processLines_append
      intro l1 h1 hd l2 h2
      exact hcross l1 h1 l2 h2 hd
    simp only [hpl]

theorem jsTrim_wrap (a : Char) (m : List Char) (z : Char)
    (ha : isWsChar a = false) (hz : isWsChar z = false) :
    jsTrim (a :: (m ++ [z])) = a :: (m ++ [z]) := by
  unfold jsTrim
  rw [List.dropWhile_cons]
  simp only [ha, Bool.false_eq_true, if_false]
  rw [show (a :: (m ++ [z])).reverse = z :: (m.reverse ++ [a]) by simp]
  rw [List.dropWhile_cons]
  simp only [hz, Bool.false_eq_true, if_false]
  simp

/-- The data line for a safe delta contains no newline. -/
theorem dataLine_noNl (d : List Char) (hd : StreamSafe d) : '\n' ∉ dataLineChars d := by
  intro hm
  have hsh : dataLineChars d = (dataMarker ++ payloadPre) ++ d ++ payloadSuf := by
    simp [dataLineChars, payloadChars]
  rw [hsh] at hm
  simp only [List.mem_append] at hm
  rcases hm with (h | h) | h
  · revert h; decide
  · have h2 := (hd _ h).2.2
    rw [show ('\n').toNat = 10 from rfl] at h2
    omega
  · revert h; decide

theorem jsTrim_dataLine (d : List Char) : jsTrim (dataLineChars d) = dataLineChars d := by
  have hshape : dataLineChars d =
      'd' :: (("ata: ".toList ++ payloadPre ++ d ++ ['"', '}', '}', ']']) ++ ['}']) := by
    simp [dataLineChars, dataMarker, payloadChars, payloadSuf]
  rw [hshape, jsTrim_wrap 'd' _ '}' (by decide) (by decide)]

theorem jsTrim_payload (d : List Char) : jsTrim (payloadChars d) = payloadChars d := by
  have hshape : payloadChars d =
      '{' :: ((payloadPre.tail ++ d ++ ['"', '}', '}', ']']) ++ ['}']) := by
    simp [payloadChars, payloadPre, payloadSuf]
  rw [hshape, jsTrim_wrap '{' _ '}' (by decide) (by decide)]

theorem dataLine_drop6 (d : List Char) : (dataLineChars d).drop 6 = payloadChars d := by
  have : dataLineChars d = dataMarker ++ payloadChars d := rfl
  rw [this, show (6 : Nat) = dataMarker.length from rfl, List.drop_left]

theorem payload_ne_done (d : List Char) : payloadChars d ≠ doneMarker := by
  simp [payloadChars, payloadPre, doneMarker]

theorem dataLine_not_done (d : List Char) : ¬IsDoneLine (dataLineChars d) := by
  intro h
  obtain ⟨_, h2⟩ := h
  rw [jsTrim_dataLine, dataLine_drop6, jsTrim_payload] at h2
  exact payload_ne_done d h2

theorem doneLine_done : IsDoneLine doneLineChars := by decide

theorem nil_not_done : ¬IsDoneLine ([] : List Char) := by decide

theorem renderSSE_split (deltas : List (List Char))
    (hd : ∀ d ∈ deltas, StreamSafe d) :
    nlSplit (renderSSE deltas) = (sseLines deltas, []) := by
  induction deltas with
  | nil =>
    have h1 : renderSSE [] = doneLineChars ++ '\n' :: ('\n' :: []) := by
      simp [renderSSE]
    rw [h1, nlSplit_line _ _ (by decide), nlSplit_cons_nl, nlSplit_nil]
    rfl
  | cons d ds ih =>
    have h1 : renderSSE (d :: ds) = dataLineChars d ++ '\n' :: ('\n' :: renderSSE ds) := by
      simp [renderSSE]
    rw [h1, nlSplit_line _ _ (dataLine_noNl d (hd d (by simp))), nlSplit_cons_nl,
      ih (fun x hx => hd x (by simp [hx]))]
    rfl

theorem handleDataLine_payload (a : List Char) (e : List (List Char)) (d : List Char)
    (hd : StreamSafe d) :
    handleDataLine (a, e) (payloadChars d) =
      (a ++ d, if d = [] then e else e ++ [d]) := by
  unfold handleDataLine
  rw [parseJson_payload d hd]
  simp only [openAIDelta_chunkJson, Option.getD_some]
  by_cases hde : d = []
  · simp [hde]
  · simp [hde]

theorem processLines_sse (deltas : List (List Char)) (hd : ∀ d ∈ deltas, StreamSafe d) :
    ∀ (a : List Char) (e : List (List Char)),
      processLines (a, e) (sseLines deltas) =
        (a ++ deltas.flatten, e ++ deltas.filter (fun d => !d.isEmpty)) := by
  induction deltas with
  | nil =>
    intro a e
    rw [show sseLines [] = doneLineChars :: [[]] from rfl, pl_done _ _ _ doneLine_done]
    simp
  | cons d ds ih =>
    intro a e
    have hshape : sseLines (d :: ds) = dataLineChars d :: [] :: sseLines ds := by
      simp [sseLines]
    have hpfx : dataMarker.isPrefixOf (jsTrim (dataLineChars d)) = true := by
      rw [jsTrim_dataLine]
      exact isPrefixOf_append_self dataMarker (payloadChars d)
    have hnd : jsTrim ((jsTrim (dataLineChars d)).drop 6) ≠ doneMarker := by
      rw [jsTrim_dataLine, dataLine_drop6, jsTrim_payload]
      exact payload_ne_done d
    rw [hshape, pl_data _ _ _ hpfx hnd, jsTrim_dataLine, dataLine_drop6, jsTrim_payload,
      handleDataLine_payload a e d (hd d (by simp)),
      pl_skip _ _ _ (by decide), ih (fun x hx => hd x (by simp [hx]))]
    by_cases hde : d = []
    · simp [hde]
    · simp [hde]

theorem sseLines_pairwise (deltas : List (List Char)) :
    List.Pairwise DoneBlank (sseLines deltas) := by
  induction deltas with
  | nil =>
    refine List.Pairwise.cons ?_ ?_
    · intro l2 hl2 _
      rw [List.mem_singleton.mp hl2]
      rfl
    · simp [DoneBlank]
  | cons d ds ih =>
    refine List.Pairwise.cons ?_ (List.Pairwise.cons ?_ ?_)
    · intro l2 _ hdone
      exact absurd hdone (dataLine_not_done d)
    · intro l2 _ hdone
      exact absurd hdone nil_not_done
    · exact ih

/-- Chunk-boundary invariance of the OpenAI decoder on well-formed SSE
    streams: however the rendered stream is cut into chunks, the final
    accumulated string is the concatenation of the deltas in order, the
    emitted fragments are exactly the non-empty deltas in order, and the
    buffer finishes empty. -/
theorem openai_invariance_core (deltas : List (List Char))
    (hsafe : ∀ d ∈ deltas, StreamSafe d)
    (cs : List (List Char)) (hcs : cs.flatten = renderSSE deltas) :
    oDecode cs = ⟨[], deltas.flatten, deltas.filter (fun d => !d.isEmpty)⟩ := by
  have hb : '\n' ∉ ([] : List Char) := by simp
  have hsp : nlSplit (([] : List Char) ++ cs.flatten) = (sseLines deltas, []) := by
    rw [List.nil_append, hcs]
    exact renderSSE_split deltas hsafe
  have hpw : List.Pairwise DoneBlank (nlSplit (([] : List Char) ++ cs.flatten)).1 := by
    rw [hsp]
    exact sseLines_pairwise deltas
  have h := oFold cs [] [] [] hb hpw
  rw [hsp] at h
  simp only at h
  rw [processLines_sse deltas hsafe [] []] at h
  simpa [oDecode] using h

/-! ## Accumulator invariants -/

/-- Each data-line handling step either leaves the state unchanged or
    appends one non-empty fragment to both the accumulator and the emitted
    list. -/
theorem handleDataLine_cases (a : List Char) (e : List (List Char)) (s : List Char) :
    handleDataLine (a, e) s = (a, e) ∨
      ∃ c, c ≠ [] ∧ handleDataLine (a, e) s = (a ++ c, e ++ [c]) := by
  unfold handleDataLine
  cases parseJson s with
  | none => left; rfl
  | some j =>
    by_cases hc : (openAIDelta j).getD [] = []
    · left; simp [hc]
    · right
      exact ⟨(openAIDelta j).getD [], hc, by simp [hc]⟩

theorem accInv_extend (a : List Char) (e : List (List Char)) (c : List Char)
    (h : AccInv a e) (hc : c ≠ []) : AccInv (a ++ c) (e ++ [c]) := by
  obtain ⟨h1, h2⟩ := h
  constructor
  · simp [h1]
  · intro f hf
    rcases List.mem_append.mp hf with h | h
    · exact h2 f h
    · rw [List.mem_singleton.mp h]; exact hc

theorem processLines_accInv (ls : List (List Char)) :
    ∀ a e, AccInv a e →
      AccInv (processLines (a, e) ls).1 (processLines (a, e) ls).2 := by
  induction ls with
  | nil => intro a e h; rw [pl_nil]; exact h
  | cons l ls ih =>
    intro a e h
    cases hp : dataMarker.isPrefixOf (jsTrim l) with
    | false => rw [pl_skip _ _ _ hp]; exact ih a e h
    | true =>
      by_cases hdn : jsTrim ((jsTrim l).drop 6) = doneMarker
      · rw [pl_done _ _ _ ⟨hp, hdn⟩]; exact h
      · rw [pl_data _ _ _ hp hdn]
        rcases handleDataLine_cases a e (jsTrim ((jsTrim l).drop 6)) with hsame | ⟨c, hc, happ⟩
        · rw [hsame]; exact ih a e h
        · rw [happ]; exact ih _ _ (accInv_extend a e c h hc)

theorem oDecode_accInv (cs : List (List Char)) :
    AccInv (oDecode cs).acc (oDecode cs).emitted := by
  unfold oDecode
  generalize hst : (⟨[], [], []⟩ : OState) = st0
  have h0 : AccInv st0.acc st0.emitted := by
    rw [← hst]; exact ⟨rfl, by simp⟩
  clear hst
  induction cs generalizing st0 with
  | nil => simpa using h0
  | cons c cs ih =>
    rw [List.foldl_cons]
    apply ih
    show AccInv (oStep st0 c).acc (oStep st0 c).emitted
    have := processLines_accInv (nlSplit (st0.buffer ++ c)).1 st0.acc st0.emitted h0
    exact this

/-- Gemini object handling likewise leaves the state unchanged or appends
    one non-empty fragment. -/
theorem gHandle_cases (a : List Char) (e : List (List Char)) (s : List Char) :
    gHandle (a, e) s = (a, e) ∨
      ∃ c, c ≠ [] ∧ gHandle (a, e) s = (a ++ c, e ++ [c]) := by
  unfold gHandle
  cases parseJson s with
  | none => left; rfl
  | some j =>
    by_cases hc : geminiContent j = []
    · left; simp [hc]
    · right
      exact ⟨geminiContent j, hc, by simp [hc]⟩

theorem gProcess_accInv :
    ∀ (n : Nat) (b : List Char), b.length ≤ n → ∀ a e, AccInv a e →
      AccInv (gProcess (a, e) b).1.1 (gProcess (a, e) b).1.2 := by
  intro n
  induction n with
  | zero =>
    intro b hb a e h
    have hbn : b = [] := List.eq_nil_of_length_eq_zero (by omega)
    subst hbn
    rw [gProcess.eq_def]
    simp [findObj]
    exact h
  | succ n ih =>
    intro b hb a e h
    rw [gProcess.eq_def]
    split
    · exact h
    · rename_i s0 e0 heq
      dsimp only
      have hlt := findObj_end_lt b 0 0 none s0 e0 heq
      have hlen : (stripSep (b.drop (e0 + 1))).length ≤ n := by
        have h1 := stripSep_length_le (b.drop (e0 + 1))
        simp only [List.length_drop] at h1
        omega
      rcases gHandle_cases a e ((b.drop s0).take (e0 + 1 - s0)) with hsame | ⟨c, hc, happ⟩
      · rw [hsame]
        exact ih _ hlen a e h
      · rw [happ]
        exact ih _ hlen _ _ (accInv_extend a e c h hc)

theorem gDecode_accInv (cs : List (List Char)) :
    AccInv (gDecode cs).acc (gDecode cs).emitted := by
  unfold gDecode
  generalize hst : (⟨[], [], []⟩ : GState) = st0
  have h0 : AccInv st0.acc st0.emitted := by
    rw [← hst]; exact ⟨rfl, by simp⟩
  clear hst
  induction cs generalizing st0 with
  | nil => simpa using h0
  | cons c cs ih =>
    rw [List.foldl_cons]
    apply ih
    show AccInv (gStep st0 c).acc (gStep st0 c).emitted
    exact gProcess_accInv _ _ (Nat.le_refl _) st0.acc st0.emitted h0

/-! ## Malformed-fragment recovery machinery -/

/-- Skipping a malformed data line: when the payload does not parse, the
    line contributes nothing and processing continues as if the line were
    absent. -/
theorem processLines_malformed (st : List Char × List (List Char))
    (ls1 : List (List Char)) (l : List Char) (ls2 : List (List Char))
    (hp : dataMarker.isPrefixOf (jsTrim l) = true)
    (hnd : jsTrim ((jsTrim l).drop 6) ≠ doneMarker)
    (hbad : parseJson (jsTrim ((jsTrim l).drop 6)) = none) :
    processLines st (ls1 ++ l :: ls2) = processLines st (ls1 ++ ls2) := by
  induction ls1 generalizing st with
  | nil =>
    rw [List.nil_append, List.nil_append, pl_data _ _ _ hp hnd]
    unfold handleDataLine
    rw [hbad]
  | cons l1 ls1 ih =>
    cases hp1 : dataMarker.isPrefixOf (jsTrim l1) with
    | false =>
      rw [List.cons_append, pl_skip _ _ _ hp1, List.cons_append, pl_skip _ _ _ hp1]
      exact ih st
    | true =>
      by_cases hd1 : jsTrim ((jsTrim l1).drop 6) = doneMarker
      · rw [List.cons_append, pl_done _ _ _ ⟨hp1, hd1⟩, List.cons_append,
          pl_done _ _ _ ⟨hp1, hd1⟩]
      · rw [List.cons_append, pl_data _ _ _ hp1 hd1, List.cons_append,
          pl_data _ _ _ hp1 hd1]
        exact ih _

theorem properTailB_skip (x : List Char) (hx : ∀ c ∈ x, c ≠ '{' ∧ c ≠ '}') :
    ∀ (d : Int) (y : List Char), properTailB d (x ++ y) = properTailB d y := by
  induction x with
  | nil => intro d y; rfl
  | cons c cs ih =>
    intro d y
    obtain ⟨h1, h2⟩ := hx c (by simp)
    rw [List.cons_append, properTailB]
    simp only [if_neg h1, if_neg h2]
    exact ih (fun a ha => hx a (by simp [ha])) d y

theorem findObj_properTail :
    ∀ (q : List Char) (d : Int), 1 ≤ d → properTailB d q = true →
      ∀ (r : List Char) (i : Nat) (s0 : Nat),
        findObj (q ++ r) i d (some s0) = some (s0, i + q.length - 1) := by
  intro q
  induction q with
  | nil => intro d _ hq; simp [properTailB] at hq
  | cons c cs ih =>
    intro d hd hq r i s0
    rw [properTailB] at hq
    rw [List.cons_append, findObj]
    by_cases hc : c = '{'
    · simp only [if_pos hc] at hq ⊢
      have hd0 : (d == 0) = false := by
        rw [beq_eq_false_iff_ne]
        omega
      rw [hd0]
      simp only [Bool.false_eq_true, if_false]
      rw [ih (d + 1) (by omega) hq r (i + 1) s0]
      simp only [List.length_cons, Option.some.injEq, Prod.mk.injEq]
      exact ⟨trivial, by omega⟩
    · simp only [if_neg hc] at hq ⊢
      by_cases hc2 : c = '}'
      · simp only [if_pos hc2] at hq ⊢
        by_cases hd1 : d = 1
        · simp only [if_pos hd1] at hq
          have hcs : cs = [] := by simpa using hq
          subst hcs hd1
          simp
        · simp only [if_neg hd1] at hq
          have hne : (d - 1 == 0) = false := by
            rw [beq_eq_false_iff_ne]
            omega
          rw [hne]
          simp only [Bool.false_eq_true, if_false]
          rw [ih (d - 1) (by omega) hq r (i + 1) s0]
          simp only [List.length_cons, Option.some.injEq, Prod.mk.injEq]
          exact ⟨trivial, by omega⟩
      · simp only [if_neg hc2] at hq ⊢
        rw [ih d hd hq r (i + 1) s0]
        simp only [List.length_cons, Option.some.injEq, Prod.mk.injEq]
        exact ⟨trivial, by omega⟩

theorem findObj_span (p : List Char) (hp : ProperSpan p) (r : List Char) :
    findObj (p ++ r) 0 0 none = some (0, p.length - 1) := by
  obtain ⟨h1, h2⟩ := hp
  rcases p with _ | ⟨c, q⟩
  · simp at h1
  · have hc : c = '{' := by simpa using h1
    subst hc
    rw [List.cons_append, findObj]
    have h3 := findObj_properTail q 1 (by omega) (by simpa using h2) r 1 0
    simp [h3]


theorem gProcess_nil (st : List Char × List (List Char)) : gProcess st [] = (st, []) := by
  rw [gProcess.eq_def]
  simp [findObj]

/-- One pass of the Gemini scan over a leading proper span: the span is cut
    out and handled, a following separator is stripped, and the scan
    restarts. -/
theorem gProcess_step (st : List Char × List (List Char)) (p r : List Char)
    (hp : ProperSpan p) :
    gProcess st (p ++ r) = gProcess (gHandle st p) (stripSep r) := by
  have hlen : 1 ≤ p.length := by
    obtain ⟨h1, _⟩ := hp
    cases p
    · simp at h1
    · simp
  rw [gProcess.eq_def]
  split
  · rename_i heq
    rw [findObj_span p hp r] at heq
    exact absurd heq (by simp)
  · rename_i s0 e0 heq
    rw [findObj_span p hp r] at heq
    obtain ⟨hs0, he0⟩ : s0 = 0 ∧ e0 = p.length - 1 := by
      constructor <;> (cases heq; rfl)
    subst hs0 he0
    dsimp only
    have htake : List.take (p.length - 1 + 1 - 0) (List.drop 0 (p ++ r)) = p := by
      rw [List.drop_zero]
      have : p.length - 1 + 1 - 0 = p.length := by omega
      rw [this, List.take_left]
    have hdrop : List.drop (p.length - 1 + 1) (p ++ r) = r := by
      have : p.length - 1 + 1 = p.length := by omega
      rw [this, List.drop_left]
    rw [htake, hdrop]

/-- The trimmed form of a list with a non-whitespace head keeps that head. -/
theorem jsTrim_head (c : Char) (x : List Char) (hc : isWsChar c = false) :
    (jsTrim (c :: x)).head? = some c := by
  unfold jsTrim
  rw [List.dropWhile_cons]
  simp only [hc, Bool.false_eq_true, if_false]
  have hrev : (c :: x).reverse = x.reverse ++ [c] := by simp
  rw [hrev]
  have hdw : ∀ (y : List Char), List.dropWhile isWsChar (y ++ [c]) =
      List.dropWhile isWsChar y ++ [c] := by
    intro y
    induction y with
    | nil => simp [List.dropWhile, hc]
    | cons a as ih =>
      rw [List.cons_append, List.dropWhile_cons]
      by_cases ha : isWsChar a
      · simp [ha, ih]
      · simp [ha]
  rw [hdw]
  simp

/-- Dropping through the first occurrence of a character that is at the
    head. -/
theorem dropPast_head (c : Char) (x : List Char) :
    (List.dropWhile (fun a => !(a == c)) (c :: x)).drop 1 = x := by
  rw [List.dropWhile_cons]
  simp

theorem stripSep_comma (x : List Char) : stripSep (',' :: x) = x := by
  unfold stripSep
  dsimp only
  rw [jsTrim_head ',' x (by decide)]
  simp [dropPast_head]

theorem stripSep_bracket_only : stripSep [']'] = [] := by decide

theorem stripSep_brace (x : List Char) : stripSep ('{' :: x) = '{' :: x := by
  unfold stripSep
  dsimp only
  rw [jsTrim_head '{' x (by decide)]
  simp

theorem gObj_proper (t : List Char) (ht : BraceFree t) : ProperSpan (gObjChars t) := by
  constructor
  · simp [gObjChars, gObjPre]
  · have hsh : (gObjChars t).tail =
        ('"' :: "candidates".toList ++ ['"', ':', '[', '{', '"'] ++ "content".toList ++
          ['"', ':', '{', '"'] ++ "parts".toList ++ ['"', ':', '[', '{', '"'] ++
          "text".toList ++ ['"', ':', '"']) ++ (t ++ gObjSuf) := by
      simp [gObjChars, gObjPre]
    rw [hsh]
    simp only [List.cons_append, List.append_assoc, List.nil_append]
    simp [properTailB, properTailB_skip t ht, gObjSuf]

theorem gSanitize_stream (y : List Char) :
    gSanitize ('[' :: '{' :: y) = '{' :: y := by
  simp [gSanitize, jsTrim_head, dropPast_head, isWsChar]

theorem gHandle_gObj (a : List Char) (e : List (List Char)) (t : List Char)
    (ht : StreamSafe t) :
    gHandle (a, e) (gObjChars t) =
      (a ++ t, if t = [] then e else e ++ [t]) := by
  unfold gHandle
  rw [parseJson_gObj t ht]
  dsimp only
  rw [geminiContent_gCandJson]
  by_cases hte : t = []
  · simp [hte]
  · simp [hte]

theorem gHandle_bad (st : List Char × List (List Char)) (s : List Char)
    (hbad : parseJson s = none) : gHandle st s = st := by
  unfold gHandle
  rw [hbad]

theorem gObjChars_head (t : List Char) : ∃ z, gObjChars t = '{' :: z :=
  ⟨(gObjChars t).tail, rfl⟩

/-- A Gemini stream of two good elements with a brace-balanced but
    unparsable span between them: the bad span is dropped, both good texts
    are still emitted, decoding finishes with an empty buffer. -/
theorem gemini_bad_span_core (t1 t2 bad : List Char)
    (h1s : StreamSafe t1) (h1b : BraceFree t1) (h1n : t1 ≠ [])
    (h2s : StreamSafe t2) (h2b : BraceFree t2) (h2n : t2 ≠ [])
    (hbp : ProperSpan bad) (hbn : parseJson bad = none) :
    gDecode ['[' :: (gObjChars t1 ++ (',' :: (bad ++ (',' :: (gObjChars t2 ++ [']'])))))] =
      ⟨[], t1 ++ t2, [t1, t2]⟩ := by
  obtain ⟨z1, hz1⟩ := gObjChars_head t1
  unfold gDecode
  rw [List.foldl_cons, List.foldl_nil]
  unfold gStep
  dsimp only
  rw [List.nil_append]
  rw [hz1, List.cons_append, gSanitize_stream, ← List.cons_append, ← hz1]
  rw [gProcess_step _ _ _ (gObj_proper t1 h1b), stripSep_comma,
    gProcess_step _ _ _ hbp, stripSep_comma,
    gProcess_step _ _ _ (gObj_proper t2 h2b), stripSep_bracket_only,
    gProcess_nil]
  rw [gHandle_gObj _ _ _ h1s, gHandle_bad _ _ hbn, gHandle_gObj _ _ _ h2s]
  simp [h1n, h2n]

/-! ## Track-selection and transcript lemmas -/

theorem findPreferredTrack_eq_claim (ts : List CaptionTrack) :
    findPreferredTrack ts = claimTrackChoice ts := by
  unfold findPreferredTrack trackPriorities claimTrackChoice
  rw [searchPriorities, searchPriorities, searchPriorities, searchPriorities,
    searchPriorities, searchPriorities, searchPriorities]
  try rfl

/-- The list-building fold of parseTranscriptXml is a filtered map. -/
theorem transcript_fold_eq (els : List (List Char)) :
    ∀ acc, els.foldl
        (fun acc el =>
          let t := normalizeText el
          if t ≠ [] then acc ++ [t] else acc) acc =
      acc ++ (els.map normalizeText).filter (fun t => !t.isEmpty) := by
  induction els with
  | nil => intro acc; simp
  | cons el els ih =>
    intro acc
    rw [List.foldl_cons]
    dsimp only
    by_cases h : normalizeText el = []
    · rw [if_neg (by simp [h]), ih acc]
      simp [List.filter_cons, h]
    · rw [if_pos h, ih (acc ++ [normalizeText el])]
      have hne : (normalizeText el).isEmpty = false := by
        cases hn : normalizeText el
        · exact absurd hn h
        · rfl
      simp [List.filter_cons, hne]

theorem parseTranscriptXml_spec (doc : TimedTextDoc) :
    parseTranscriptXml doc =
      joinSpace ((((if doc.textEls.length = 0 then doc.pEls else doc.textEls).map
        normalizeText).filter (fun t => !t.isEmpty))) := by
  unfold parseTranscriptXml
  dsimp only
  rw [transcript_fold_eq]
  rfl

/-! ## Claim theorems -/

/-- Claim C2: for every sequence of text chunks that reassembles a
    well-formed OpenAI SSE stream, the final accumulated string equals the
    concatenation, in emission order, of all choices[0].delta.content
    values, regardless of chunk boundaries; and on each cycle the last
    (possibly partial) line segment is held back in the buffer while only
    the complete lines are processed. -/
theorem openai_chunk_boundary_invariance (deltas : List (List Char))
    (hsafe : ∀ d ∈ deltas, StreamSafe d)
    (cs : List (List Char)) (hcs : cs.flatten = renderSSE deltas) :
    oDecodeResult cs = deltas.flatten ∧
    (∀ (st : OState) (c : List Char),
      (oStep st c).buffer = (nlSplit (st.buffer ++ c)).2 ∧
      (oStep st c).acc =
        (processLines (st.acc, st.emitted) (nlSplit (st.buffer ++ c)).1).1) := by
  refine ⟨?_, fun st c => ⟨rfl, rfl⟩⟩
  unfold oDecodeResult
  rw [openai_invariance_core deltas hsafe cs hcs]

/-- Witness for C2: the spec's end-to-end pair of fragments, with the
    stream cut at byte 29, in the middle of the first JSON payload. -/
theorem openai_chunk_boundary_invariance_witness :
    oDecodeResult [(renderSSE ["Hi".toList, " there".toList]).take 29,
      (renderSSE ["Hi".toList, " there".toList]).drop 29] = "Hi there".toList := by
  have h := openai_chunk_boundary_invariance ["Hi".toList, " there".toList]
    (by decide)
    [(renderSSE ["Hi".toList, " there".toList]).take 29,
      (renderSSE ["Hi".toList, " there".toList]).drop 29]
    (by simp)
  rw [h.1]
  rfl

/-- Claim C1 (code evaluation at the failing input): the one-chunk stream
    `[{"candidates":[{"content":{"parts":[{"text":"a{b"}]}}]}]` is a
    well-formed Gemini streaming array whose single text value is `a{b`,
    yet the decoder accumulates nothing and emits nothing, because the
    brace counter also counts the brace inside the string literal. -/
theorem gemini_brace_in_string_loses_fragment :
    gDecodeResult [renderGemini [['a', '{', 'b']]] = [] ∧
    (gDecode [renderGemini [['a', '{', 'b']]]).emitted = [] ∧
    parseJson (gObjChars ['a', '{', 'b']) = some (gCandJson ['a', '{', 'b']) ∧
    geminiContent (gCandJson ['a', '{', 'b']) = ['a', '{', 'b'] := by
  refine ⟨?_, ?_, rfl, rfl⟩
  · simp [gDecodeResult, gDecode, gStep, gSanitize, gProcess, gHandle, stripSep,
      findObj, jsTrim, isWsChar, renderGemini, gObjChars, gObjPre, gObjSuf,
      List.intercalate]
  · simp [gDecode, gStep, gSanitize, gProcess, gHandle, stripSep,
      findObj, jsTrim, isWsChar, renderGemini, gObjChars, gObjPre, gObjSuf,
      List.intercalate]

/-- Claim C3, counterexample: after the `[DONE]` line has been processed in
    one chunk, a data line arriving in a later chunk is still decoded and
    emitted, so the sentinel does not stop emission across chunks. -/
theorem done_does_not_stop_later_chunks :
    (oDecode [doneLineChars ++ ['\n'], dataLineChars ['X'] ++ ['\n']]).emitted =
      [['X']] ∧
    oDecodeResult [doneLineChars ++ ['\n'], dataLineChars ['X'] ++ ['\n']] = ['X'] :=
  ⟨rfl, rfl⟩

/-- Claim C3 as amended: once the `[DONE]` payload is seen, the remaining
    lines of the same processing cycle (the same chunk) are not processed;
    the JavaScript break leaves only the per-chunk line loop, so later
    chunks are decoded again. -/
theorem done_stops_remaining_lines_of_chunk (st : List Char × List (List Char))
    (l : List Char) (ls : List (List Char)) (h : IsDoneLine l) :
    processLines st (l :: ls) = st :=
  pl_done st l ls h

/-- Witness for the amended C3: a `[DONE]` line followed in the same chunk
    by a content-bearing data line yields no output. -/
theorem done_stops_remaining_lines_of_chunk_witness :
    processLines (([], []) : List Char × List (List Char))
      (doneLineChars :: [dataLineChars ['X']]) = ([], []) :=
  done_stops_remaining_lines_of_chunk ([], []) doneLineChars [dataLineChars ['X']]
    (by decide)

/-- Claim C4: for both decoders, at every point (after any chunk sequence)
    the accumulated string is the ordered concatenation of the fragments
    emitted so far, and the value returned at completion is that
    accumulation. -/
theorem decoders_acc_is_emitted_concat :
    (∀ cs : List (List Char),
      (oDecode cs).acc = (oDecode cs).emitted.flatten ∧
      oDecodeResult cs = (oDecode cs).acc) ∧
    (∀ cs : List (List Char),
      (gDecode cs).acc = (gDecode cs).emitted.flatten ∧
      gDecodeResult cs = (gDecode cs).acc) :=
  ⟨fun cs => ⟨(oDecode_accInv cs).1, rfl⟩, fun cs => ⟨(gDecode_accInv cs).1, rfl⟩⟩

/-- Claim C5: on a non-success response neither decoder runs and no
    fragment is emitted; the call rejects with the provider-supplied
    `error.message` when the body parses as JSON and carries a non-empty
    one, and otherwise with the generic provider-status message. -/
theorem error_responses_bypass_decoder (resp : HttpResp) (chunks : List (List Char))
    (hok : resp.ok = false) :
    (callOpenAIOutcome resp chunks).2 = [] ∧
    (callGeminiOutcome resp chunks).2 = [] ∧
    (∀ j m, parseJson resp.body = some j → errMessage j = some m → m ≠ [] →
      (callOpenAIOutcome resp chunks).1 = Except.error m ∧
      (callGeminiOutcome resp chunks).1 = Except.error m) ∧
    ((∀ j, parseJson resp.body = some j → (errMessage j).getD [] = []) →
      (callOpenAIOutcome resp chunks).1 =
        Except.error (openAIGeneric ++ (toString resp.status).toList) ∧
      (callGeminiOutcome resp chunks).1 =
        Except.error (geminiGeneric ++ (toString resp.status).toList)) := by
  unfold callOpenAIOutcome callGeminiOutcome
  rw [hok]
  simp only [Bool.false_eq_true, if_false]
  refine ⟨trivial, trivial, ?_, ?_⟩
  · intro j m hj hm hne
    unfold apiErrorMsg
    rw [hj]
    simp [hm, hne]
  · intro hnone
    unfold apiErrorMsg
    cases hj : parseJson resp.body with
    | none => simp
    | some j =>
      have := hnone j hj
      simp [this]

/-- Witness for C5: a 404 with an unparsable body maps to the generic
    provider messages and no emission. -/
theorem error_responses_bypass_decoder_witness :
    (callOpenAIOutcome ⟨false, 404, "nope".toList⟩ []).2 = [] ∧
    (callOpenAIOutcome ⟨false, 404, "nope".toList⟩ []).1 =
      Except.error "OpenAI API error: 404".toList ∧
    (callGeminiOutcome ⟨false, 404, "nope".toList⟩ []).1 =
      Except.error "Gemini API error: 404".toList := by
  have h := error_responses_bypass_decoder ⟨false, 404, "nope".toList⟩ [] rfl
  have hpn : parseJson "nope".toList = none := rfl
  have hgen := h.2.2.2 (fun j hj => by
    rw [show ((⟨false, 404, "nope".toList⟩ : HttpResp)).body = "nope".toList from rfl,
      hpn] at hj
    cases hj)
  exact ⟨h.1, hgen.1, hgen.2⟩

/-- Claim C6: a malformed fragment is dropped and decoding continues.  For
    the OpenAI decoder, a data line whose payload does not parse
    contributes nothing: the stream decodes exactly as if the line were
    absent.  For the Gemini decoder, a brace-balanced span that is not
    valid JSON between two good elements is dropped while both surrounding
    texts are still emitted and accumulated, and the call never fails. -/
theorem malformed_fragment_dropped_locally :
    (∀ (st : List Char × List (List Char)) (ls1 : List (List Char)) (l : List Char)
        (ls2 : List (List Char)),
      dataMarker.isPrefixOf (jsTrim l) = true →
      jsTrim ((jsTrim l).drop 6) ≠ doneMarker →
      parseJson (jsTrim ((jsTrim l).drop 6)) = none →
      processLines st (ls1 ++ l :: ls2) = processLines st (ls1 ++ ls2)) ∧
    (∀ t1 t2 bad : List Char,
      StreamSafe t1 → BraceFree t1 → t1 ≠ [] →
      StreamSafe t2 → BraceFree t2 → t2 ≠ [] →
      ProperSpan bad → parseJson bad = none →
      gDecode ['[' :: (gObjChars t1 ++ (',' :: (bad ++ (',' :: (gObjChars t2 ++ [']'])))))] =
        ⟨[], t1 ++ t2, [t1, t2]⟩) :=
  ⟨processLines_malformed, gemini_bad_span_core⟩

/-- Witness for C6: a concrete malformed OpenAI line between two good
    lines, and the concrete unparsable span `{x}` between two good Gemini
    elements. -/
theorem malformed_fragment_dropped_locally_witness :
    (processLines (([], []) : List Char × List (List Char))
        ([dataLineChars ['A']] ++ (dataMarker ++ ['{', 'o', 'o', 'p', 's', '}']) ::
          [dataLineChars ['B']]) =
      processLines (([], []) : List Char × List (List Char))
        ([dataLineChars ['A']] ++ [dataLineChars ['B']])) ∧
    gDecode ['[' :: (gObjChars ['A'] ++ (',' :: (['{', 'x', '}'] ++
        (',' :: (gObjChars ['B'] ++ [']'])))))] = ⟨[], ['A', 'B'], [['A'], ['B']]⟩ := by
  constructor
  · exact malformed_fragment_dropped_locally.1 ([], []) [dataLineChars ['A']]
      (dataMarker ++ ['{', 'o', 'o', 'p', 's', '}']) [dataLineChars ['B']]
      (by decide) (by decide) rfl
  · exact malformed_fragment_dropped_locally.2 ['A'] ['B'] ['{', 'x', '}']
      (by decide) (by decide) (by decide) (by decide) (by decide) (by decide)
      (by decide) rfl

/-- Claim C7: the OpenAI path sends the transcript unchanged at up to
    15000 characters and otherwise exactly its first 15000 characters plus
    the truncation marker; the Gemini path does the same at 30000. -/
theorem transcript_truncation (t : List Char) :
    (t.length ≤ 15000 → openAITruncate t = t) ∧
    (15000 < t.length →
      openAITruncate t = t.take 15000 ++ truncMarker ∧
      (openAITruncate t).length = 15000 + truncMarker.length) ∧
    (t.length ≤ 30000 → geminiTruncate t = t) ∧
    (30000 < t.length →
      geminiTruncate t = t.take 30000 ++ truncMarker ∧
      (geminiTruncate t).length = 30000 + truncMarker.length) := by
  unfold openAITruncate geminiTruncate
  refine ⟨fun h => ?_, fun h => ?_, fun h => ?_, fun h => ?_⟩
  · rw [if_neg (by omega)]
  · rw [if_pos h]
    refine ⟨rfl, ?_⟩
    simp [List.length_take]
    omega
  · rw [if_neg (by omega)]
  · rw [if_pos h]
    refine ⟨rfl, ?_⟩
    simp [List.length_take]
    omega

/-- Witness for C7: a 20000-character transcript through the OpenAI path
    is capped to its first 15000 characters plus the marker. -/
theorem transcript_truncation_witness :
    openAITruncate (List.replicate 20000 'a') =
      List.replicate 15000 'a' ++ truncMarker := by
  have hlen : (15000 : Nat) < (List.replicate 20000 'a').length := by
    rw [List.length_replicate]
    omega
  have h := (transcript_truncation (List.replicate 20000 'a')).2.1 hlen
  rw [h.1, List.take_replicate]
  norm_num

/-- Claim C8: track selection is the ordered-priority search the claim
    describes (six predicates, first match wins, fallback to the first
    track), and on `[{en, asr}, {vi, manual}]` it returns the manual
    Vietnamese track; on `[{en, asr}]` alone it returns that track. -/
theorem track_selection_priority_order :
    (∀ ts : List CaptionTrack, findPreferredTrack ts = claimTrackChoice ts) ∧
    findPreferredTrack [⟨"en", some "asr"⟩, ⟨"vi", none⟩] =
      some ⟨"vi", none⟩ ∧
    findPreferredTrack [⟨"en", some "asr"⟩] = some ⟨"en", some "asr"⟩ ∧
    findPreferredTrack [] = none :=
  ⟨findPreferredTrack_eq_claim, rfl, rfl, rfl⟩

/-- Claim C9: the transcript flattener normalises every selected element
    (text elements, with p elements as the fallback when no text element
    exists), keeps the non-empty results in order and joins them with
    single spaces; and the element `A &amp; B\nC` contributes `A & B C`. -/
theorem transcript_xml_flattening :
    (∀ doc : TimedTextDoc,
      parseTranscriptXml doc =
        joinSpace (((if doc.textEls.length = 0 then doc.pEls else doc.textEls).map
          normalizeText).filter (fun t => !t.isEmpty))) ∧
    normalizeText "A &amp; B\nC".toList = "A & B C".toList ∧
    parseTranscriptXml ⟨["A &amp; B\nC".toList], ["zz".toList]⟩ = "A & B C".toList ∧
    parseTranscriptXml ⟨[], ["hi".toList, "".toList, "yo".toList]⟩ = "hi yo".toList := by
  have hnorm : normalizeText "A &amp; B\nC".toList = "A & B C".toList := by
    simp [normalizeText, replaceAll, jsTrim, isWsChar, List.isPrefixOf]
  refine ⟨parseTranscriptXml_spec, hnorm, ?_, ?_⟩
  · rw [parseTranscriptXml_spec]
    rw [show (if ([("A &amp; B\nC".toList)] : List (List Char)).length = 0 then
          (["zz".toList] : List (List Char)) else ["A &amp; B\nC".toList]) =
        ["A &amp; B\nC".toList] from rfl]
    rw [List.map_cons, List.map_nil, hnorm]
    rfl
  · rw [parseTranscriptXml_spec]
    rw [show (if (([] : List (List Char))).length = 0 then
          (["hi".toList, "".toList, "yo".toList] : List (List Char)) else []) =
        ["hi".toList, "".toList, "yo".toList] from rfl]
    rw [List.map_cons, List.map_cons, List.map_cons, List.map_nil]
    rw [show normalizeText "hi".toList = "hi".toList from by
        simp [normalizeText, replaceAll, jsTrim, isWsChar],
      show normalizeText "yo".toList = "yo".toList from by
        simp [normalizeText, replaceAll, jsTrim, isWsChar],
      show normalizeText "".toList = ([] : List Char) from by
        simp [normalizeText, replaceAll, jsTrim]]
    rfl

/-- Claim C10: every fragment either decoder passes to the callback is
    non-empty, and an object whose content field is absent or empty
    neither invokes the callback nor changes the accumulated string. -/
theorem emitted_fragments_nonempty :
    (∀ (cs : List (List Char)) (f : List Char), f ∈ (oDecode cs).emitted → f ≠ []) ∧
    (∀ (cs : List (List Char)) (f : List Char), f ∈ (gDecode cs).emitted → f ≠ []) ∧
    (∀ (a : List Char) (e : List (List Char)) (s : List Char) (j : Json),
      parseJson s = some j → (openAIDelta j).getD [] = [] →
      handleDataLine (a, e) s = (a, e)) ∧
    (∀ (a : List Char) (e : List (List Char)) (s : List Char) (j : Json),
      parseJson s = some j → geminiContent j = [] →
      gHandle (a, e) s = (a, e)) := by
  refine ⟨fun cs f hf => (oDecode_accInv cs).2 f hf,
    fun cs f hf => (gDecode_accInv cs).2 f hf, ?_, ?_⟩
  · intro a e s j hj hempty
    unfold handleDataLine
    rw [hj]
    simp [hempty]
  · intro a e s j hj hempty
    unfold gHandle
    rw [hj]
    simp [hempty]

/-- Witness for C10: a decoded one-line stream emits only the non-empty
    fragment X, and objects with empty content leave the state unchanged. -/
theorem emitted_fragments_nonempty_witness :
    (['X'] ≠ ([] : List Char)) ∧
    handleDataLine (([], []) : List Char × List (List Char)) (payloadChars []) =
      ([], []) ∧
    gHandle (([], []) : List Char × List (List Char)) (gObjChars []) = ([], []) := by
  refine ⟨?_, ?_, ?_⟩
  · exact emitted_fragments_nonempty.1 [dataLineChars ['X'] ++ ['\n']] ['X']
      (by rw [show (oDecode [dataLineChars ['X'] ++ ['\n']]).emitted = [['X']] from rfl]
          simp)
  · exact emitted_fragments_nonempty.2.2.1 [] [] (payloadChars []) (chunkJson [])
      rfl rfl
  · exact emitted_fragments_nonempty.2.2.2 [] [] (gObjChars []) (gCandJson [])
      rfl rfl
